import Mathlib

/-!
# Verification of the Hana staged-sync engine

Shallow embedding of the stage implementations in `src/bin/hana.rs`
(`ConvertHeaders` and `ConvertBodies`, the Erigon-import stages) and of
`src/src/downloader/headers_downloader/stages/verify_slices_stage.rs`
(`VerifySlicesStage`), together with proofs of the specification claims
about them.

Modelling conventions:
* `u64` block numbers and transaction ids become `Nat` (no arithmetic in the
  embedded code can overflow: the only subtraction, `checked_sub`, is
  modelled by an explicit zero test exactly where the source checks it).
* 32-byte hashes, RLP-encoded headers and encoded transactions are opaque
  payloads, modelled as `Nat`.  RLP decode/re-encode round-trips
  (`Decodable::decode` followed by `Encodable::encode`) are modelled as the
  identity on the opaque payload.
* an MDBX table is an association list ordered by key; a cursor `walk(from)`
  is the sublist of entries whose key is at least `from`, `append` appends
  at the end, `get`/`seek_exact` is association lookup.
* fallible Rust code (`anyhow::Result` plus `unwrap` panics) returns an
  `Outcome`: `.ok`, `.error msg` (a `bail!`/`format_err!` error) or
  `.panicked` (an `unwrap` of `None`).
* wall-clock time in `ConvertBodies::execute` is an oracle: pulling one
  entry from the canonical-header walker consumes the head of a list `durs`
  of durations (in seconds); `Instant::now()` reads the accumulated total.
* loops whose termination measure is not structural take an explicit fuel
  argument; the callers supply fuel that the termination argument shows is
  never exhausted (proved by the lemmas below), so the fueled function
  agrees with the source loop.
-/

/-- Outcome of running a fallible piece of Rust code: success, an
`anyhow` error carrying its message, or a panic from `unwrap` on `None`. -/
inductive Outcome (α : Type) where
  | ok (a : α)
  | error (msg : String)
  | panicked
deriving DecidableEq

/-- `stagedsync::stage::ExecOutput` as used by `src/bin/hana.rs`: either
forward progress or an unwind request. -/
inductive ExecOutput where
  | Progress (stage_progress : Nat) (done : Bool)
  | Unwind (unwind_to : Nat)
deriving DecidableEq

/-- `stagedsync::stage::StageInput` (stage ids are short strings). -/
structure StageInput where
  restarted : Bool
  previous_stage : Option (String × Nat)
  stage_progress : Option Nat
deriving DecidableEq

/-- `stagedsync::stage::UnwindInput`. -/
structure UnwindInput where
  unwind_to : Nat
  stage_progress : Nat
deriving DecidableEq

/-- `stagedsync::stage::UnwindOutput`. -/
structure UnwindOutput where
  stage_progress : Nat
deriving DecidableEq

/-- `models::BodyForStorage`: the `(base_tx_id, tx_amount)` stride of a
block body plus its (opaque) uncle headers. -/
structure BodyForStorage where
  base_tx_id : Nat
  tx_amount : Nat
  uncles : List Nat
deriving DecidableEq

/-- The tables of a chaindata MDBX environment touched by the two
Erigon-import stages.  Keys: `CanonicalHeader` is keyed by block number,
`Header`/`HeadersTotalDifficulty`/`BlockBody` by `(block number, hash)`,
`BlockTransaction` by transaction id. -/
structure DB where
  canonicalHeader : List (Nat × Nat)
  header : List ((Nat × Nat) × Nat)
  headersTotalDifficulty : List ((Nat × Nat) × Nat)
  blockBody : List ((Nat × Nat) × BodyForStorage)
  blockTransaction : List (Nat × Nat)
deriving DecidableEq

/-- `tx.get(table, key)`: lookup in an association-list table. -/
def tblGet {κ β : Type} [DecidableEq κ] (t : List (κ × β)) (k : κ) : Option β :=
  (t.find? (fun e => decide (e.1 = k))).map (fun e => e.2)

/-- `cursor.walk(Some(lo))` on a table keyed by a block number (or a
transaction id): all entries with key at least `lo`, in table order. -/
def walkFrom {β : Type} (t : List (Nat × β)) (lo : Nat) : List (Nat × β) :=
  t.filter (fun e => decide (lo ≤ e.1))

/-- `cursor.walk(Some(encode(lo)))` on an erased table keyed by
`(block number, hash)`: the 8-byte big-endian block-number prefix makes this
all entries whose block number is at least `lo`. -/
def walkFromP {β : Type} (t : List ((Nat × Nat) × β)) (lo : Nat) :
    List ((Nat × Nat) × β) :=
  t.filter (fun e => decide (lo ≤ e.1.1))

/-- The message of the fatal error raised when a divergence is found at the
genesis block (`format_err!` in both `ConvertHeaders::execute` and
`ConvertBodies::execute`). -/
def pastGenesisMsg : String :=
  "Attempted to unwind past genesis block, are Erigon and Hana on the same chain?"

/-- The `if let Some(exit_after_progress) = ...` break condition of the
`ConvertHeaders::execute` walk loop, on `delta = block_number -
original_highest_block` (the `checked_sub` cannot fail because the walk
starts at `original_highest_block + 1`). -/
def pastIncrement (exit_after_progress : Option Nat) (delta : Nat) : Bool :=
  match exit_after_progress with
  | some eap => decide (delta > eap)
  | none => false

/-- The walk loop of `ConvertHeaders::execute` (`hana.rs:170-209`): for each
`(block_number, canonical_hash)` from the Erigon canonical-header walker,
stop at `max_block` or after `exit_after_progress` blocks, otherwise append
the canonical hash, the header (looked up in Erigon's erased `Header` table,
`unwrap` panics if absent) and the total difficulty (likewise) to the local
tables, tracking the highest appended block. -/
def headersLoop (erigonDb : DB) (max_block exit_after_progress : Option Nat)
    (original_highest_block : Nat) :
    List (Nat × Nat) → DB → Nat → Outcome (DB × Nat)
  | [], db, highest => .ok (db, highest)
  | (block_number, canonical_hash) :: rest, db, highest =>
    if block_number > max_block.getD (2 ^ 64 - 1) then .ok (db, highest)
    else if pastIncrement exit_after_progress (block_number - original_highest_block) then
      .ok (db, highest)
    else
      match tblGet erigonDb.header (block_number, canonical_hash) with
      | none => .panicked
      | some hdr =>
        match tblGet erigonDb.headersTotalDifficulty (block_number, canonical_hash) with
        | none => .panicked
        | some td =>
          headersLoop erigonDb max_block exit_after_progress original_highest_block rest
            { db with
              canonicalHeader := db.canonicalHeader ++ [(block_number, canonical_hash)],
              header := db.header ++ [((block_number, canonical_hash), hdr)],
              headersTotalDifficulty :=
                db.headersTotalDifficulty ++ [((block_number, canonical_hash), td)] }
            block_number

/-- `ConvertHeaders::execute` (`hana.rs:138-215`): check the source/local
canonical-header entries at the current progress block; on divergence return
`Unwind{unwind_to: highest - 1}` (fatal at genesis), otherwise walk the
Erigon canonical table from `highest + 1` and return `Progress{done: true}`. -/
def ConvertHeaders.execute (erigonDb db : DB) (input : StageInput)
    (max_block exit_after_progress : Option Nat) : Outcome (DB × ExecOutput) :=
  let original_highest_block := input.stage_progress.getD 0
  if tblGet erigonDb.canonicalHeader original_highest_block ≠
      tblGet db.canonicalHeader original_highest_block then
    if original_highest_block = 0 then .error pastGenesisMsg
    else .ok (db, .Unwind (original_highest_block - 1))
  else
    match headersLoop erigonDb max_block exit_after_progress original_highest_block
        (walkFrom erigonDb.canonicalHeader (original_highest_block + 1)) db
        original_highest_block with
    | .ok (db', highest) => .ok (db', .Progress highest true)
    | .error e => .error e
    | .panicked => .panicked

/-- Modelled from the spec: `stagedsync::util::unwind_by_block_key` (its
source is not under `src/`; per §4.1 unwind must "remove all effects above
`unwind_to`"): keep exactly the rows whose block-number key component is at
most `unwind_to`.  `block_key` is the key-to-block-number extractor passed
at each call site in `ConvertHeaders::unwind`. -/
def unwind_by_block_key {κ β : Type} (block_key : κ → Nat) (t : List (κ × β))
    (unwind_to : Nat) : List (κ × β) :=
  t.filter (fun e => decide (block_key e.1 ≤ unwind_to))

/-- `ConvertHeaders::unwind` (`hana.rs:217-237`): unwind the three header
tables by block key and report `unwind_to` as the new stage progress. -/
def ConvertHeaders.unwind (db : DB) (input : UnwindInput) : DB × UnwindOutput :=
  ({ db with
      canonicalHeader := unwind_by_block_key id db.canonicalHeader input.unwind_to,
      header := unwind_by_block_key Prod.fst db.header input.unwind_to,
      headersTotalDifficulty :=
        unwind_by_block_key Prod.fst db.headersTotalDifficulty input.unwind_to },
    ⟨input.unwind_to⟩)

/-- `MAX_TXS_PER_BATCH` in `ConvertBodies::execute`. -/
def MAX_TXS_PER_BATCH : Nat := 500000

/-- One block gathered by the batch-collection loop of
`ConvertBodies::execute`: `(block_num, block_hash, body, txs)`. -/
structure BatchEntry where
  block_num : Nat
  block_hash : Nat
  body : BodyForStorage
  txs : List Nat
deriving DecidableEq

/-- The per-block transaction read of `ConvertBodies::execute`
(`hana.rs:356-361`): walk the source `BlockTransaction` table from
`base_tx_id`, keep the values, take `tx_amount` of them. -/
def readTxs (etxs : List (Nat × Nat)) (base_tx_id tx_amount : Nat) : List Nat :=
  ((walkFrom etxs base_tx_id).map (fun e => e.2)).take tx_amount

/-- The message of the `bail!` raised by `ConvertBodies::execute` on a short
transaction read (`hana.rs:363-371`). -/
def invalidTxMsg (block_num block_hash tx_amount got : Nat) : String :=
  "Invalid tx amount in Erigon for block #" ++
    (toString block_num ++
      ("/" ++ toString block_hash ++ ": " ++ toString tx_amount ++ " != " ++
        toString got))

/-- The inner loop of the batch collection (`hana.rs:340-380`) for a fixed
canonical block: pull entries from the Erigon `BlockBody` walker; an entry
past the block stops the collection (`break 'l`), a hash mismatch is
skipped (`continue`), a match yields the body and the remaining walker.
`none` means the collection stops (walker exhausted or past the block). -/
def findBody (block_num block_hash : Nat) :
    List ((Nat × Nat) × BodyForStorage) →
      Option (BodyForStorage × List ((Nat × Nat) × BodyForStorage))
  | [] => none
  | ((body_block_num, body_block_hash), body) :: rest =>
    if body_block_num > block_num then none
    else if body_block_hash ≠ block_hash then findBody block_num block_hash rest
    else some (body, rest)

/-- Result of one batch collection: the gathered batch, the remaining
walkers, the remaining duration oracle, the accumulated wall-clock, and the
`no_more_bodies` flag. -/
structure CollectOut where
  batch : List BatchEntry
  canon : List (Nat × Nat)
  ebodies : List ((Nat × Nat) × BodyForStorage)
  durs : List Nat
  consumed : Nat
  no_more_bodies : Bool
deriving DecidableEq

/-- The batch-collection loop (`'l` in `hana.rs:337-386`): walk the local
canonical headers in lockstep with the Erigon bodies, read each body's
transaction stride (a short read is a fatal `bail!`), and stop either when a
walker is exhausted / past a block (`no_more_bodies = true`) or when the
accumulated transaction count exceeds `MAX_TXS_PER_BATCH`
(`no_more_bodies = false`).  Pulling one canonical entry consumes one
duration from the wall-clock oracle `durs`. -/
def collectBatch (etxs : List (Nat × Nat)) :
    List (Nat × Nat) → List ((Nat × Nat) × BodyForStorage) → List Nat → Nat →
      Nat → List BatchEntry → Outcome CollectOut
  | [], ebodies, durs, consumed, _accum, batch =>
    .ok ⟨batch, [], ebodies, durs, consumed, true⟩
  | (block_num, block_hash) :: crest, ebodies, durs, consumed, accum, batch =>
    let consumed' := consumed + durs.headD 0
    let durs' := durs.tail
    match findBody block_num block_hash ebodies with
    | none => .ok ⟨batch, crest, [], durs', consumed', true⟩
    | some (body, brest) =>
      let txs := readTxs etxs body.base_tx_id body.tx_amount
      if txs.length ≠ body.tx_amount then
        .error (invalidTxMsg block_num block_hash body.tx_amount txs.length)
      else
        let accum' := accum + body.tx_amount
        let batch' := batch ++ [⟨block_num, block_hash, body, txs⟩]
        if accum' > MAX_TXS_PER_BATCH then
          .ok ⟨batch', crest, brest, durs', consumed', false⟩
        else collectBatch etxs crest brest durs' consumed' accum' batch'

/-- The sequential append phase of `ConvertBodies::execute`
(`hana.rs:418-437`): for each converted block append a body row whose
`base_tx_id` is the locally assigned `starting_index` and whose `tx_amount`
is the number of its transactions, append the transactions at consecutive
local ids, and advance `starting_index` and `highest_block`.  (The parallel
decode/re-encode of `hana.rs:398-416` round-trips the opaque payloads, so it
is the identity here.) -/
def appendBatch : List BatchEntry → DB → Nat → Nat → DB × Nat × Nat
  | [], db, starting_index, highest => (db, starting_index, highest)
  | e :: rest, db, starting_index, highest =>
    appendBatch rest
      { db with
        blockBody := db.blockBody ++
          [((e.block_num, e.block_hash),
            ⟨starting_index, e.txs.length, e.body.uncles⟩)],
        blockTransaction := db.blockTransaction ++
          e.txs.enum.map (fun p => (starting_index + p.1, p.2)) }
      (starting_index + e.txs.length) e.block_num

/-- The `let done = loop { ... }` of `ConvertBodies::execute`
(`hana.rs:334-463`): collect a batch, append it, and either finish with
`done = true` when no more bodies remain, or — when the batch stopped at the
transaction cap — consult the clock: only when more than 30 seconds passed
since the last check is `commit_after` compared against the time since the
start of the stage (`break false` on excess, otherwise the check time is
reset).  The first argument is fuel, decremented once per batch; the caller
passes `canon.length + 1`, which is never exhausted because every further
iteration consumes at least one canonical entry. -/
def bodiesLoop (etxs : List (Nat × Nat)) (commit_after : Nat) :
    Nat → List (Nat × Nat) → List ((Nat × Nat) × BodyForStorage) → List Nat →
      Nat → Nat → Nat → DB → Nat → Outcome (DB × ExecOutput)
  | 0, _, _, _, _, _, _, _, _ => .panicked
  | fuel + 1, canon, ebodies, durs, consumed, last_check, starting_index, db, highest =>
    match collectBatch etxs canon ebodies durs consumed 0 [] with
    | .error e => .error e
    | .panicked => .panicked
    | .ok r =>
      match appendBatch r.batch db starting_index highest with
      | (db', starting_index', highest') =>
        if r.no_more_bodies then .ok (db', .Progress highest' true)
        else
          let now := r.consumed
          if now - last_check > 30 then
            if now > commit_after then .ok (db', .Progress highest' false)
            else
              bodiesLoop etxs commit_after fuel r.canon r.ebodies r.durs
                r.consumed now starting_index' db' highest'
          else
            bodiesLoop etxs commit_after fuel r.canon r.ebodies r.durs
              r.consumed last_check starting_index' db' highest'

/-- `ConvertBodies::execute` (`hana.rs:278-469`): the divergence check at
the progress block (fatal at genesis, otherwise `Unwind`), the `unwrap`ed
lookups of the local canonical hash and previous body row at the progress
block, and the batched conversion loop starting the local transaction id at
`prev_body.base_tx_id + prev_body.tx_amount`. -/
def ConvertBodies.execute (erigonDb db : DB) (input : StageInput)
    (commit_after : Nat) (durs : List Nat) : Outcome (DB × ExecOutput) :=
  let original_highest_block := input.stage_progress.getD 0
  if tblGet erigonDb.canonicalHeader original_highest_block ≠
      tblGet db.canonicalHeader original_highest_block then
    if original_highest_block = 0 then .error pastGenesisMsg
    else .ok (db, .Unwind (original_highest_block - 1))
  else
    match tblGet db.canonicalHeader original_highest_block with
    | none => .panicked
    | some canonical_hash =>
      match tblGet db.blockBody (original_highest_block, canonical_hash) with
      | none => .panicked
      | some prev_body =>
        bodiesLoop erigonDb.blockTransaction commit_after
          ((walkFrom db.canonicalHeader (original_highest_block + 1)).length + 1)
          (walkFrom db.canonicalHeader (original_highest_block + 1))
          (walkFromP erigonDb.blockBody (original_highest_block + 1))
          durs 0 0 (prev_body.base_tx_id + prev_body.tx_amount) db
          original_highest_block

/-- Does a body's `(base_tx_id, tx_amount)` stride cover a transaction id? -/
def strideCovers (body : BodyForStorage) (tx_id : Nat) : Bool :=
  decide (body.base_tx_id ≤ tx_id ∧ tx_id < body.base_tx_id + body.tx_amount)

/-- The deletion loop of `ConvertBodies::unwind` (`hana.rs:478-496`):
repeatedly look at the last `BlockBody` row; stop once its block number is
at most `unwind_to`, otherwise delete it together with every present
transaction id in its stride.  Fueled (first argument); the caller passes
`bodies.length + 1`, never exhausted since each iteration drops one row. -/
def bodiesUnwindLoop (unwind_to : Nat) :
    Nat → List ((Nat × Nat) × BodyForStorage) → List (Nat × Nat) →
      List ((Nat × Nat) × BodyForStorage) × List (Nat × Nat)
  | 0, bodies, txs => (bodies, txs)
  | fuel + 1, bodies, txs =>
    match bodies.getLast? with
    | none => (bodies, txs)
    | some ((block_num, _), body) =>
      if block_num ≤ unwind_to then (bodies, txs)
      else
        bodiesUnwindLoop unwind_to fuel bodies.dropLast
          (txs.filter (fun t => !strideCovers body t.1))

/-- `ConvertBodies::unwind` (`hana.rs:470-501`). -/
def ConvertBodies.unwind (db : DB) (input : UnwindInput) : DB × UnwindOutput :=
  match bodiesUnwindLoop input.unwind_to (db.blockBody.length + 1) db.blockBody
      db.blockTransaction with
  | (bodies, txs) =>
    ({ db with blockBody := bodies, blockTransaction := txs }, ⟨input.unwind_to⟩)

/-! ## VerifySlicesStage -/

/-- `HeaderSliceStatus` (spec §4.3; the container sources are not under
`src/`). -/
inductive HeaderSliceStatus where
  | Empty
  | Requested
  | Downloaded
  | VerifiedInternally
  | Invalid
  | VerifiedLinked
  | Saved
  | Refetch
deriving DecidableEq

/-- Modelled from the spec: `HeaderSlice` with the fields listed in §3
(`headers_downloader::headers::header_slices` is not under `src/`); header
values are opaque. -/
structure HeaderSlice where
  start_block_num : Nat
  status : HeaderSliceStatus
  headers : Option (List Nat)
  request_time : Nat
  request_attempt : Nat
deriving DecidableEq

/-- A `HeaderSliceVerifier` as called by `verify_slice`: headers,
`start_block_num`, the current unix time, and the (opaque) chain spec. -/
def VerifierFn : Type := List Nat → Nat → Nat → Nat → Bool

/-- `VerifySlicesStage::verify_slice` (`verify_slices_stage.rs:100-111`):
absent headers verify to `false` without consulting the verifier; otherwise
the configured verifier decides. -/
def verify_slice (verifier : VerifierFn) (now chain_spec : Nat)
    (s : HeaderSlice) : Bool :=
  match s.headers with
  | none => false
  | some headers => verifier headers s.start_block_num now chain_spec

/-- How many times `verify_slice` invokes the configured verifier on a given
slice: once when `headers` is present, never when absent (it returns `false`
before the call). -/
def verify_slice_calls (s : HeaderSlice) : Nat :=
  match s.headers with
  | none => 0
  | some _ => 1

/-- Number of slices currently in a given status (the container's
status-count map, derived). -/
def countStatus (status : HeaderSliceStatus) (slices : List HeaderSlice) : Nat :=
  slices.countP (fun s => decide (s.status = status))

/-- Modelled from the spec: `HeaderSlices::find_batch_by_status` (container
sources not under `src/`): up to `count` distinct slices currently in
`status`, in window order. -/
def find_batch_by_status (status : HeaderSliceStatus) (count : Nat)
    (slices : List HeaderSlice) : List HeaderSlice :=
  (slices.filter (fun s => decide (s.status = status))).take count

/-- Modelled from the spec: `HeaderSlices::set_slice_status` updates the
slice's status (the status-count map is `countStatus`, recomputed). -/
def set_slice_status (s : HeaderSlice) (status : HeaderSliceStatus) : HeaderSlice :=
  { s with status := status }

/-- One drain iteration of `verify_pending` applied in place: transform the
first `n` slices in status `Downloaded` (the batch found by
`find_batch_by_status`) to `VerifiedInternally` or `Invalid` according to
`verify_slice`, leaving every other slice untouched
(`verify_slices_stage.rs:59-72`). -/
def processBatch (verifier : VerifierFn) (now chain_spec : Nat) :
    Nat → List HeaderSlice → List HeaderSlice
  | _, [] => []
  | 0, slices => slices
  | n + 1, s :: rest =>
    if s.status = .Downloaded then
      set_slice_status s
          (if verify_slice verifier now chain_spec s then .VerifiedInternally
           else .Invalid) ::
        processBatch verifier now chain_spec n rest
    else s :: processBatch verifier now chain_spec (n + 1) rest

/-- `VerifySlicesStage::verify_pending` (`verify_slices_stage.rs:50-74`):
loop: find a batch of `Downloaded` slices of size `num_cpus`; stop when it
is empty; otherwise verify the batch (each slice verified exactly once, the
invocation count is accumulated in the second component) and assign terminal
statuses.  Fueled (first argument); the caller passes `slices.length + 1`,
never exhausted since each iteration takes at least one slice out of
`Downloaded`. -/
def verify_pending (verifier : VerifierFn) (now chain_spec num_cpus : Nat) :
    Nat → List HeaderSlice → List HeaderSlice × Nat
  | 0, slices => (slices, 0)
  | fuel + 1, slices =>
    let slices_batch := find_batch_by_status .Downloaded num_cpus slices
    if slices_batch.isEmpty then (slices, 0)
    else
      let calls := (slices_batch.map verify_slice_calls).sum
      let r := verify_pending verifier now chain_spec num_cpus fuel
        (processBatch verifier now chain_spec num_cpus slices)
      (r.1, calls + r.2)

/-- `VerifySlicesStage::execute` (`verify_slices_stage.rs:39-48`): after the
`pending_watch.wait()` (whose postcondition — at least one `Downloaded`
slice — is a hypothesis of the theorems below), drain via `verify_pending`.
Returns the final slices and the total number of verifier invocations. -/
def VerifySlicesStage.execute (verifier : VerifierFn) (now chain_spec num_cpus : Nat)
    (slices : List HeaderSlice) : List HeaderSlice × Nat :=
  verify_pending verifier now chain_spec num_cpus (slices.length + 1) slices

/-- The per-slice outcome of one `execute` run, for stating the claims: a
`Downloaded` slice ends in `VerifiedInternally` or `Invalid` according to
its own verification verdict, every other slice is untouched. -/
def slice_verdict (verifier : VerifierFn) (now chain_spec : Nat)
    (s : HeaderSlice) : HeaderSlice :=
  if s.status = .Downloaded then
    set_slice_status s
      (if verify_slice verifier now chain_spec s then .VerifiedInternally
       else .Invalid)
  else s

/-- Substring test used to state that an error message identifies its data:
`strContains needle hay` holds when `needle` occurs contiguously in `hay`. -/
def strContains (needle hay : String) : Bool :=
  (List.range (hay.data.length + 1)).any
    (fun i => needle.data.isPrefixOf (hay.data.drop i))

/-- Total `tx_amount` of a list of body rows. -/
def sumAmt (nb : List ((Nat × Nat) × BodyForStorage)) : Nat :=
  (nb.map (fun e => e.2.tx_amount)).sum

/-- Dense transaction-id assignment: each body row's `base_tx_id` equals the
running index and the index advances by its `tx_amount` (spec §4.5
invariant, stated over the rows appended by one `execute` run). -/
def contiguousFrom : Nat → List ((Nat × Nat) × BodyForStorage) → Bool
  | _, [] => true
  | idx, e :: rest =>
    decide (e.2.base_tx_id = idx) && contiguousFrom (idx + e.2.tx_amount) rest

/-! ## Concrete databases used to instantiate the theorems -/

/-- An Erigon db whose canonical hash at block 5 is 99. -/
def exErigonDiv : DB := ⟨[(5, 99)], [], [], [], []⟩

/-- A local db whose canonical hash at block 5 is 88 (diverges from
`exErigonDiv`). -/
def exLocalDiv : DB := ⟨[(5, 88)], [], [], [], []⟩

/-- Stage input with progress at block 5. -/
def exInput5 : StageInput := ⟨false, none, some 5⟩

/-- Stage input with progress at block 0 (fresh start). -/
def exInput0 : StageInput := ⟨false, none, some 0⟩

/-- An Erigon db with a canonical hash at genesis. -/
def exErigonGen : DB := ⟨[(0, 1)], [], [], [], []⟩

/-- A local db with no canonical hash at genesis (diverges from
`exErigonGen` at block 0). -/
def exLocalGen : DB := ⟨[], [], [], [], []⟩

/-- Erigon side for the dense-transaction-id run: two bodies above block 0
whose source strides live at source ids 5 and 6-7. -/
def exErigonDense : DB :=
  ⟨[(0, 10)], [], [],
    [((1, 11), ⟨5, 1, []⟩), ((2, 12), ⟨6, 2, []⟩)],
    [(5, 100), (6, 101), (7, 102)]⟩

/-- Local side for the dense-transaction-id run: canonical chain up to
block 2, genesis body stored, no transactions yet. -/
def exLocalDense : DB :=
  ⟨[(0, 10), (1, 11), (2, 12)], [], [], [((0, 10), ⟨0, 0, []⟩)], []⟩

/-- The local db after the dense-transaction-id run: bodies of blocks 1-2
re-based at local ids 0 and 1, transactions at local ids 0-2. -/
def exLocalDenseOut : DB :=
  ⟨[(0, 10), (1, 11), (2, 12)], [], [],
    [((0, 10), ⟨0, 0, []⟩), ((1, 11), ⟨0, 1, []⟩), ((2, 12), ⟨1, 2, []⟩)],
    [(0, 100), (1, 101), (2, 102)]⟩

/-- Erigon side with a short transaction read: the body of block 1 claims
two transactions at ids 0-1 but only one is present. -/
def exErigonShort : DB :=
  ⟨[(0, 10)], [], [], [((1, 11), ⟨0, 2, []⟩)], [(0, 77)]⟩

/-- Local side for the short-read run. -/
def exLocalShort : DB :=
  ⟨[(0, 10), (1, 11)], [], [], [((0, 10), ⟨0, 0, []⟩)], []⟩

/-- Erigon side for the commit-after counterexample: two empty bodies. -/
def exErigonSlow : DB :=
  ⟨[(0, 10)], [], [],
    [((1, 11), ⟨0, 0, []⟩), ((2, 12), ⟨0, 0, []⟩)], []⟩

/-- Local side for the commit-after counterexample. -/
def exLocalSlow : DB :=
  ⟨[(0, 10), (1, 11), (2, 12)], [], [], [((0, 10), ⟨0, 0, []⟩)], []⟩

/-- The local db after the commit-after counterexample run: both bodies
appended (each with zero transactions, so `base_tx_id` stays 0). -/
def exLocalSlowOut : DB :=
  ⟨[(0, 10), (1, 11), (2, 12)], [], [],
    [((0, 10), ⟨0, 0, []⟩), ((1, 11), ⟨0, 0, []⟩), ((2, 12), ⟨0, 0, []⟩)], []⟩

/-- A local db whose canonical chain stops at block 4 while the stage
progress record claims block 5. -/
def exLocalMissing : DB :=
  ⟨[(0, 10), (1, 11), (2, 12), (3, 13), (4, 14)], [], [], [], []⟩

/-- An Erigon db that does have a canonical hash at block 5. -/
def exErigonAt5 : DB :=
  ⟨[(0, 10), (1, 11), (2, 12), (3, 13), (4, 14), (5, 15)], [], [], [], []⟩

/-- A local db with a canonical hash at genesis but no stored genesis body
row (the `unwrap` precondition of `ConvertBodies::execute` fails). -/
def exLocalNoBody : DB := ⟨[(0, 10)], [], [], [], []⟩

/-- An Erigon db agreeing with `exLocalNoBody` at genesis. -/
def exErigonAgree : DB := ⟨[(0, 10)], [], [], [], []⟩

/-- A populated local db used to exercise the unwind paths: blocks 0-3 in
every header table, bodies with contiguous strides, transactions 0-5. -/
def exUnwindDb : DB :=
  ⟨[(0, 10), (1, 11), (2, 12), (3, 13)],
    [((0, 10), 20), ((1, 11), 21), ((2, 12), 22), ((3, 13), 23)],
    [((0, 10), 30), ((1, 11), 31), ((2, 12), 32), ((3, 13), 33)],
    [((0, 10), ⟨0, 1, []⟩), ((1, 11), ⟨1, 2, []⟩), ((2, 12), ⟨3, 1, []⟩),
      ((3, 13), ⟨4, 2, []⟩)],
    [(0, 100), (1, 101), (2, 102), (3, 103), (4, 104), (5, 105)]⟩

/-- Verifier used in the slice witnesses: accepts exactly the header list
`[7]`. -/
def exVerifier : VerifierFn := fun headers _ _ _ => decide (headers = [7])

/-- Three slices: a `Downloaded` one the verifier accepts, a `Downloaded`
one it rejects, and an `Empty` one. -/
def exSlices : List HeaderSlice :=
  [⟨0, .Downloaded, some [7], 0, 0⟩,
   ⟨192, .Downloaded, some [8], 0, 0⟩,
   ⟨384, .Empty, none, 0, 0⟩]

/-- A slice whose headers were taken by a concurrent reset. -/
def exSliceNoHeaders : HeaderSlice := ⟨0, .Downloaded, none, 0, 0⟩

/-! ## Lemmas about the `ConvertBodies` loops -/

theorem headD_add_tail_sum (l : List Nat) : l.headD 0 + l.tail.sum = l.sum := by
  cases l <;> simp

theorem range_one_append : ∀ (m s n : Nat),
    List.range' s m ++ List.range' (s + m) n = List.range' s (m + n) := by
  intro m
  induction m with
  | zero => intro s n; simp
  | succ m ih =>
    intro s n
    have h1 : s + (m + 1) = (s + 1) + m := by omega
    have h2 : m + 1 + n = (m + n) + 1 := by omega
    simp only [List.range'_succ, h2, List.cons_append, h1, ih]

theorem sumAmt_append (l1 l2 : List ((Nat × Nat) × BodyForStorage)) :
    sumAmt (l1 ++ l2) = sumAmt l1 + sumAmt l2 := by
  simp [sumAmt]

theorem contiguousFrom_append :
    ∀ (l1 : List ((Nat × Nat) × BodyForStorage)) (idx : Nat)
      (l2 : List ((Nat × Nat) × BodyForStorage)),
      contiguousFrom idx l1 = true → contiguousFrom (idx + sumAmt l1) l2 = true →
      contiguousFrom idx (l1 ++ l2) = true := by
  intro l1
  induction l1 with
  | nil => intro idx l2 _ h2; simpa [sumAmt] using h2
  | cons e rest ih =>
    intro idx l2 h1 h2
    simp only [contiguousFrom, Bool.and_eq_true, decide_eq_true_eq] at h1
    have hs : idx + sumAmt (e :: rest) = (idx + e.2.tx_amount) + sumAmt rest := by
      simp [sumAmt]; omega
    rw [hs] at h2
    simp only [List.cons_append, contiguousFrom, Bool.and_eq_true, decide_eq_true_eq]
    exact ⟨h1.1, ih _ _ h1.2 h2⟩

theorem collectBatch_consumed (etxs : List (Nat × Nat)) :
    ∀ (canon : List (Nat × Nat)) ebodies durs consumed accum batch r,
      collectBatch etxs canon ebodies durs consumed accum batch = .ok r →
      r.consumed + r.durs.sum = consumed + durs.sum := by
  intro canon
  induction canon with
  | nil =>
    intro ebodies durs consumed accum batch r h
    simp only [collectBatch, Outcome.ok.injEq] at h
    subst h
    simp
  | cons hd crest ih =>
    intro ebodies durs consumed accum batch r h
    obtain ⟨block_num, block_hash⟩ := hd
    simp only [collectBatch] at h
    cases hfb : findBody block_num block_hash ebodies with
    | none =>
      rw [hfb] at h
      simp only [Outcome.ok.injEq] at h
      subst h
      have := headD_add_tail_sum durs
      simp only []
      omega
    | some p =>
      obtain ⟨body, brest⟩ := p
      rw [hfb] at h
      simp only [] at h
      split at h
      · exact absurd h (by simp)
      · split at h
        · simp only [Outcome.ok.injEq] at h
          subst h
          have := headD_add_tail_sum durs
          simp only []
          omega
        · have := ih brest durs.tail (consumed + durs.headD 0) _ _ r h
          have h2 := headD_add_tail_sum durs
          omega

theorem collectBatch_canon_length (etxs : List (Nat × Nat)) :
    ∀ (canon : List (Nat × Nat)) ebodies durs consumed accum batch r,
      collectBatch etxs canon ebodies durs consumed accum batch = .ok r →
      r.no_more_bodies = false → r.canon.length < canon.length := by
  intro canon
  induction canon with
  | nil =>
    intro ebodies durs consumed accum batch r h hfalse
    simp only [collectBatch, Outcome.ok.injEq] at h
    subst h
    simp at hfalse
  | cons hd crest ih =>
    intro ebodies durs consumed accum batch r h hfalse
    obtain ⟨block_num, block_hash⟩ := hd
    simp only [collectBatch] at h
    cases hfb : findBody block_num block_hash ebodies with
    | none =>
      rw [hfb] at h
      simp only [Outcome.ok.injEq] at h
      subst h
      simp at hfalse
    | some p =>
      obtain ⟨body, brest⟩ := p
      rw [hfb] at h
      simp only [] at h
      split at h
      · exact absurd h (by simp)
      · split at h
        · simp only [Outcome.ok.injEq] at h
          subst h
          simp
        · have := ih brest durs.tail (consumed + durs.headD 0) _ _ r h hfalse
          simp only [List.length_cons]
          omega

theorem appendBatch_spec :
    ∀ (batch : List BatchEntry) (db : DB) (starting_index highest : Nat),
      ∃ nb nt,
        (appendBatch batch db starting_index highest).1.blockBody =
            db.blockBody ++ nb ∧
          (appendBatch batch db starting_index highest).1.blockTransaction =
            db.blockTransaction ++ nt ∧
          (appendBatch batch db starting_index highest).1.canonicalHeader =
            db.canonicalHeader ∧
          (appendBatch batch db starting_index highest).1.header = db.header ∧
          (appendBatch batch db starting_index highest).1.headersTotalDifficulty =
            db.headersTotalDifficulty ∧
          contiguousFrom starting_index nb = true ∧
          nt.map Prod.fst = List.range' starting_index (sumAmt nb) ∧
          (appendBatch batch db starting_index highest).2.1 =
            starting_index + sumAmt nb := by
  intro batch
  induction batch with
  | nil =>
    intro db starting_index highest
    refine ⟨[], [], ?_, ?_, ?_, ?_, ?_, ?_, ?_, ?_⟩ <;>
      simp [appendBatch, sumAmt, contiguousFrom]
  | cons e rest ih =>
    intro db starting_index highest
    obtain ⟨nb, nt, h1, h2, h3, h4, h5, h6, h7, h8⟩ :=
      ih { db with
            blockBody := db.blockBody ++
              [((e.block_num, e.block_hash),
                ⟨starting_index, e.txs.length, e.body.uncles⟩)],
            blockTransaction := db.blockTransaction ++
              e.txs.enum.map (fun p => (starting_index + p.1, p.2)) }
        (starting_index + e.txs.length) e.block_num
    refine ⟨((e.block_num, e.block_hash),
        ⟨starting_index, e.txs.length, e.body.uncles⟩) :: nb,
      e.txs.enum.map (fun p => (starting_index + p.1, p.2)) ++ nt, ?_, ?_, ?_, ?_, ?_, ?_, ?_, ?_⟩
    · rw [appendBatch, h1]; simp
    · rw [appendBatch, h2]; simp
    · rw [appendBatch, h3]
    · rw [appendBatch, h4]
    · rw [appendBatch, h5]
    · simp [contiguousFrom, h6]
    · have hids : (e.txs.enum.map (fun p => (starting_index + p.1, p.2))).map Prod.fst =
          List.range' starting_index e.txs.length := by
        rw [List.map_map]
        have : (Prod.fst ∘ fun p : Nat × Nat => (starting_index + p.1, p.2)) =
            (fun x => starting_index + x) ∘ Prod.fst := by
          funext p; rfl
        rw [this, ← List.map_map, List.enum_map_fst, ← List.range'_eq_map_range]
      have hsum : sumAmt (((e.block_num, e.block_hash),
          (⟨starting_index, e.txs.length, e.body.uncles⟩ : BodyForStorage)) :: nb) =
          e.txs.length + sumAmt nb := by
        simp [sumAmt]
      rw [List.map_append, hids, h7, hsum, range_one_append]
    · rw [appendBatch, h8]
      simp [sumAmt]
      omega

theorem bodiesLoop_spec (etxs : List (Nat × Nat)) (commit_after : Nat) :
    ∀ (fuel : Nat) canon ebodies durs consumed last_check starting_index db
      highest db' out,
      bodiesLoop etxs commit_after fuel canon ebodies durs consumed last_check
          starting_index db highest = .ok (db', out) →
      ∃ nb nt hb done,
        out = .Progress hb done ∧
          db'.blockBody = db.blockBody ++ nb ∧
          db'.blockTransaction = db.blockTransaction ++ nt ∧
          db'.canonicalHeader = db.canonicalHeader ∧
          db'.header = db.header ∧
          db'.headersTotalDifficulty = db.headersTotalDifficulty ∧
          contiguousFrom starting_index nb = true ∧
          nt.map Prod.fst = List.range' starting_index (sumAmt nb) ∧
          (done = false → commit_after < consumed + durs.sum) := by
  intro fuel
  induction fuel with
  | zero =>
    intro canon ebodies durs consumed last_check starting_index db highest db' out h
    exact absurd h (by simp [bodiesLoop])
  | succ fuel ih =>
    intro canon ebodies durs consumed last_check starting_index db highest db' out h
    simp only [bodiesLoop] at h
    cases hcb : collectBatch etxs canon ebodies durs consumed 0 [] with
    | error e => rw [hcb] at h; exact absurd h (by simp)
    | panicked => rw [hcb] at h; exact absurd h (by simp)
    | ok r =>
      rw [hcb] at h
      simp only [] at h
      obtain ⟨nb1, nt1, a1, a2, a3, a4, a5, a6, a7, a8⟩ :=
        appendBatch_spec r.batch db starting_index highest
      rcases hab : appendBatch r.batch db starting_index highest with ⟨db1, idx1, hb1⟩
      rw [hab] at h a1 a2 a3 a4 a5 a8
      simp only [] at h a1 a2 a3 a4 a5 a8
      have hcons := collectBatch_consumed etxs canon ebodies durs consumed 0 [] r hcb
      split at h
      · simp only [Outcome.ok.injEq, Prod.mk.injEq] at h
        obtain ⟨hdb, hout⟩ := h
        subst hdb
        exact ⟨nb1, nt1, hb1, true, hout.symm, a1, a2, a3, a4, a5, a6, a7,
          by intro hc; cases hc⟩
      · split at h
        · split at h
          · simp only [Outcome.ok.injEq, Prod.mk.injEq] at h
            obtain ⟨hdb, hout⟩ := h
            subst hdb
            refine ⟨nb1, nt1, hb1, false, hout.symm, a1, a2, a3, a4, a5, a6, a7, ?_⟩
            intro _
            rename_i hgt30 hnow
            omega
          · obtain ⟨nb2, nt2, hb2, done2, b0, b1, b2, b3, b4, b5, b6, b7, b8⟩ :=
              ih r.canon r.ebodies r.durs r.consumed r.consumed idx1 db1 hb1 db' out h
            refine ⟨nb1 ++ nb2, nt1 ++ nt2, hb2, done2, b0, ?_, ?_, ?_, ?_, ?_, ?_, ?_, ?_⟩
            · rw [b1, a1, List.append_assoc]
            · rw [b2, a2, List.append_assoc]
            · rw [b3, a3]
            · rw [b4, a4]
            · rw [b5, a5]
            · exact contiguousFrom_append nb1 starting_index nb2 a6 (a8 ▸ b6)
            · rw [List.map_append, a7, b7, a8, sumAmt_append, range_one_append]
            · intro hdone
              have := b8 hdone
              omega
        · obtain ⟨nb2, nt2, hb2, done2, b0, b1, b2, b3, b4, b5, b6, b7, b8⟩ :=
            ih r.canon r.ebodies r.durs r.consumed last_check idx1 db1 hb1 db' out h
          refine ⟨nb1 ++ nb2, nt1 ++ nt2, hb2, done2, b0, ?_, ?_, ?_, ?_, ?_, ?_, ?_, ?_⟩
          · rw [b1, a1, List.append_assoc]
          · rw [b2, a2, List.append_assoc]
          · rw [b3, a3]
          · rw [b4, a4]
          · rw [b5, a5]
          · exact contiguousFrom_append nb1 starting_index nb2 a6 (a8 ▸ b6)
          · rw [List.map_append, a7, b7, a8, sumAmt_append, range_one_append]
          · intro hdone
            have := b8 hdone
            omega

/-! ## Divergence-check lemmas shared by several claims -/

theorem convertHeaders_execute_div_unwinds (erigonDb db : DB) (input : StageInput)
    (max_block exit_after_progress : Option Nat)
    (hdiv : tblGet erigonDb.canonicalHeader (input.stage_progress.getD 0) ≠
      tblGet db.canonicalHeader (input.stage_progress.getD 0))
    (hpos : input.stage_progress.getD 0 ≠ 0) :
    ConvertHeaders.execute erigonDb db input max_block exit_after_progress =
      .ok (db, .Unwind (input.stage_progress.getD 0 - 1)) := by
  simp only [ConvertHeaders.execute]
  rw [if_pos hdiv, if_neg hpos]

theorem convertBodies_execute_div_unwinds (erigonDb db : DB) (input : StageInput)
    (commit_after : Nat) (durs : List Nat)
    (hdiv : tblGet erigonDb.canonicalHeader (input.stage_progress.getD 0) ≠
      tblGet db.canonicalHeader (input.stage_progress.getD 0))
    (hpos : input.stage_progress.getD 0 ≠ 0) :
    ConvertBodies.execute erigonDb db input commit_after durs =
      .ok (db, .Unwind (input.stage_progress.getD 0 - 1)) := by
  simp only [ConvertBodies.execute]
  rw [if_pos hdiv, if_neg hpos]

/-- C1: on a divergence of the source and local `CanonicalHeader` entries at
the current stage-progress block (above genesis), both `ConvertHeaders.execute`
and `ConvertBodies.execute` return `Unwind` with `unwind_to` one below that
block and write nothing; conversely, an `Unwind` can only arise from that
divergence check, with exactly that target and no writes — it is the only
unwind trigger of these stages. -/
theorem convertHeaders_divergence_unwind (erigonDb db : DB) (input : StageInput)
    (max_block exit_after_progress : Option Nat) (commit_after : Nat)
    (durs : List Nat) :
    (tblGet erigonDb.canonicalHeader (input.stage_progress.getD 0) ≠
        tblGet db.canonicalHeader (input.stage_progress.getD 0) →
      0 < input.stage_progress.getD 0 →
      ConvertHeaders.execute erigonDb db input max_block exit_after_progress =
          .ok (db, .Unwind (input.stage_progress.getD 0 - 1)) ∧
        ConvertBodies.execute erigonDb db input commit_after durs =
          .ok (db, .Unwind (input.stage_progress.getD 0 - 1))) ∧
    (∀ db' u,
      ConvertHeaders.execute erigonDb db input max_block exit_after_progress =
          .ok (db', .Unwind u) →
      tblGet erigonDb.canonicalHeader (input.stage_progress.getD 0) ≠
          tblGet db.canonicalHeader (input.stage_progress.getD 0) ∧
        u = input.stage_progress.getD 0 - 1 ∧ db' = db) ∧
    (∀ db' u,
      ConvertBodies.execute erigonDb db input commit_after durs =
          .ok (db', .Unwind u) →
      tblGet erigonDb.canonicalHeader (input.stage_progress.getD 0) ≠
          tblGet db.canonicalHeader (input.stage_progress.getD 0) ∧
        u = input.stage_progress.getD 0 - 1 ∧ db' = db) := by
  refine ⟨?_, ?_, ?_⟩
  · intro hdiv hpos
    exact ⟨convertHeaders_execute_div_unwinds erigonDb db input max_block
        exit_after_progress hdiv (by omega),
      convertBodies_execute_div_unwinds erigonDb db input commit_after durs hdiv (by omega)⟩
  · intro db' u h
    simp only [ConvertHeaders.execute] at h
    by_cases hdiv : tblGet erigonDb.canonicalHeader (input.stage_progress.getD 0) ≠
        tblGet db.canonicalHeader (input.stage_progress.getD 0)
    · rw [if_pos hdiv] at h
      by_cases h0 : input.stage_progress.getD 0 = 0
      · rw [if_pos h0] at h
        cases h
      · rw [if_neg h0] at h
        simp only [Outcome.ok.injEq, Prod.mk.injEq, ExecOutput.Unwind.injEq] at h
        exact ⟨hdiv, h.2.symm, h.1.symm⟩
    · rw [if_neg hdiv] at h
      cases hl : headersLoop erigonDb max_block exit_after_progress
          (input.stage_progress.getD 0)
          (walkFrom erigonDb.canonicalHeader (input.stage_progress.getD 0 + 1)) db
          (input.stage_progress.getD 0) with
      | ok p =>
        rw [hl] at h
        simp at h
      | error e => rw [hl] at h; cases h
      | panicked => rw [hl] at h; cases h
  · intro db' u h
    simp only [ConvertBodies.execute] at h
    by_cases hdiv : tblGet erigonDb.canonicalHeader (input.stage_progress.getD 0) ≠
        tblGet db.canonicalHeader (input.stage_progress.getD 0)
    · rw [if_pos hdiv] at h
      by_cases h0 : input.stage_progress.getD 0 = 0
      · rw [if_pos h0] at h
        cases h
      · rw [if_neg h0] at h
        simp only [Outcome.ok.injEq, Prod.mk.injEq, ExecOutput.Unwind.injEq] at h
        exact ⟨hdiv, h.2.symm, h.1.symm⟩
    · rw [if_neg hdiv] at h
      cases hc : tblGet db.canonicalHeader (input.stage_progress.getD 0) with
      | none => rw [hc] at h; cases h
      | some canonical_hash =>
        rw [hc] at h
        simp only [] at h
        cases hb : tblGet db.blockBody (input.stage_progress.getD 0, canonical_hash) with
        | none => rw [hb] at h; cases h
        | some prev_body =>
          rw [hb] at h
          simp only [] at h
          obtain ⟨nb, nt, hb1, done1, hout, _⟩ :=
            bodiesLoop_spec erigonDb.blockTransaction commit_after _ _ _ _ _ _ _ _ _
              db' (.Unwind u) h
          cases hout

/-- Witness for `convertHeaders_divergence_unwind`: divergence at block 5
makes both stages return `Unwind{unwind_to: 4}` with the local db untouched. -/
theorem convertHeaders_divergence_unwind_witness :
    ConvertHeaders.execute exErigonDiv exLocalDiv exInput5 none none =
        .ok (exLocalDiv, .Unwind 4) ∧
      ConvertBodies.execute exErigonDiv exLocalDiv exInput5 120 [] =
        .ok (exLocalDiv, .Unwind 4) :=
  (convertHeaders_divergence_unwind exErigonDiv exLocalDiv exInput5 none none
    120 []).1 (by decide) (by decide)

/-- C2: a divergence of the source and local `CanonicalHeader` entries at
genesis (stage progress 0) is a fatal error, not an `Unwind`, in both
stages, and the error message contains "past genesis". -/
theorem divergence_at_genesis_fatal (erigonDb db : DB) (input : StageInput)
    (max_block exit_after_progress : Option Nat) (commit_after : Nat)
    (durs : List Nat) (hz : input.stage_progress.getD 0 = 0)
    (hdiv : tblGet erigonDb.canonicalHeader 0 ≠ tblGet db.canonicalHeader 0) :
    ConvertHeaders.execute erigonDb db input max_block exit_after_progress =
        .error pastGenesisMsg ∧
      ConvertBodies.execute erigonDb db input commit_after durs =
        .error pastGenesisMsg ∧
      strContains "past genesis" pastGenesisMsg = true := by
  refine ⟨?_, ?_, by decide⟩
  · simp only [ConvertHeaders.execute, hz]
    rw [if_pos hdiv]
    simp
  · simp only [ConvertBodies.execute, hz]
    rw [if_pos hdiv]
    simp

/-- Witness for `divergence_at_genesis_fatal` at a concrete genesis
divergence. -/
theorem divergence_at_genesis_fatal_witness :
    ConvertHeaders.execute exErigonGen exLocalGen exInput0 none none =
        .error pastGenesisMsg ∧
      ConvertBodies.execute exErigonGen exLocalGen exInput0 120 [] =
        .error pastGenesisMsg ∧
      strContains "past genesis" pastGenesisMsg = true :=
  divergence_at_genesis_fatal exErigonGen exLocalGen exInput0 none none 120 []
    (by decide) (by decide)

/-! ## Transaction-stride reads (claim C6 support) -/

theorem readTxs_length_le (etxs : List (Nat × Nat)) (base_tx_id tx_amount : Nat) :
    (readTxs etxs base_tx_id tx_amount).length ≤ tx_amount := by
  simp [readTxs, List.length_take]

theorem collectBatch_batch_reads (etxs : List (Nat × Nat)) :
    ∀ (canon : List (Nat × Nat)) ebodies durs consumed accum batch r,
      collectBatch etxs canon ebodies durs consumed accum batch = .ok r →
      ∀ e ∈ r.batch, e ∈ batch ∨
        (e.txs = readTxs etxs e.body.base_tx_id e.body.tx_amount ∧
          e.txs.length = e.body.tx_amount) := by
  intro canon
  induction canon with
  | nil =>
    intro ebodies durs consumed accum batch r h e he
    simp only [collectBatch, Outcome.ok.injEq] at h
    subst h
    exact Or.inl he
  | cons hd crest ih =>
    intro ebodies durs consumed accum batch r h e he
    obtain ⟨block_num, block_hash⟩ := hd
    simp only [collectBatch] at h
    cases hfb : findBody block_num block_hash ebodies with
    | none =>
      rw [hfb] at h
      simp only [Outcome.ok.injEq] at h
      subst h
      exact Or.inl he
    | some p =>
      obtain ⟨body, brest⟩ := p
      rw [hfb] at h
      simp only [] at h
      split at h
      · exact absurd h (by simp)
      · rename_i hlen
        rw [not_ne_iff] at hlen
        split at h
        · simp only [Outcome.ok.injEq] at h
          subst h
          simp only [] at he
          rcases List.mem_append.mp he with hin | hnew
          · exact Or.inl hin
          · right
            rcases List.mem_singleton.mp hnew with rfl
            exact ⟨rfl, hlen⟩
        · rcases ih brest durs.tail (consumed + durs.headD 0) _ _ r h e he with hin | hp
          · rcases List.mem_append.mp hin with hin' | hnew
            · exact Or.inl hin'
            · right
              rcases List.mem_singleton.mp hnew with rfl
              exact ⟨rfl, hlen⟩
          · exact Or.inr hp

theorem collectBatch_error_shape (etxs : List (Nat × Nat)) :
    ∀ (canon : List (Nat × Nat)) ebodies durs consumed accum batch m,
      collectBatch etxs canon ebodies durs consumed accum batch = .error m →
      ∃ block_num block_hash body,
        m = invalidTxMsg block_num block_hash (body : BodyForStorage).tx_amount
            (readTxs etxs body.base_tx_id body.tx_amount).length ∧
          (readTxs etxs body.base_tx_id body.tx_amount).length < body.tx_amount := by
  intro canon
  induction canon with
  | nil =>
    intro ebodies durs consumed accum batch m h
    simp [collectBatch] at h
  | cons hd crest ih =>
    intro ebodies durs consumed accum batch m h
    obtain ⟨block_num, block_hash⟩ := hd
    simp only [collectBatch] at h
    cases hfb : findBody block_num block_hash ebodies with
    | none => rw [hfb] at h; cases h
    | some p =>
      obtain ⟨body, brest⟩ := p
      rw [hfb] at h
      simp only [] at h
      split at h
      · rename_i hlen
        simp only [Outcome.error.injEq] at h
        refine ⟨block_num, block_hash, body, h.symm, ?_⟩
        have := readTxs_length_le etxs body.base_tx_id body.tx_amount
        omega
      · split at h
        · cases h
        · exact ih brest durs.tail (consumed + durs.headD 0) _ _ m h

theorem strContains_append_mid (a n b : String) :
    strContains n (a ++ (n ++ b)) = true := by
  have hdata : (a ++ (n ++ b)).data = a.data ++ (n.data ++ b.data) := by
    simp
  unfold strContains
  rw [List.any_eq_true]
  refine ⟨a.data.length, ?_, ?_⟩
  · rw [List.mem_range, hdata, List.length_append]
    omega
  · rw [hdata, List.drop_left, List.isPrefixOf_iff_prefix]
    exact List.prefix_append _ _

theorem invalidTxMsg_names_block (block_num block_hash tx_amount got : Nat) :
    strContains (toString block_num)
      (invalidTxMsg block_num block_hash tx_amount got) = true :=
  strContains_append_mid _ _ _

/-- C6: every block gathered by the batch-collection loop of
`ConvertBodies.execute` carries exactly the `tx_amount` transactions read
from the source transaction table starting at `base_tx_id`; and when a
stride read comes up short, `execute` surfaces the fatal `bail!` error —
whose message names the block — rather than any `Unwind` or `Progress`
outcome. -/
theorem convertBodies_reads_exact_stride (erigonDb db : DB) (input : StageInput)
    (commit_after : Nat) (durs : List Nat) :
    (∀ canon ebodies durs2 consumed r,
      collectBatch erigonDb.blockTransaction canon ebodies durs2 consumed 0 [] =
          .ok r →
      ∀ e ∈ r.batch,
        e.txs = readTxs erigonDb.blockTransaction e.body.base_tx_id
            e.body.tx_amount ∧
          e.txs.length = e.body.tx_amount) ∧
    (∀ canonical_hash prev_body m,
      tblGet erigonDb.canonicalHeader (input.stage_progress.getD 0) =
          tblGet db.canonicalHeader (input.stage_progress.getD 0) →
      tblGet db.canonicalHeader (input.stage_progress.getD 0) =
          some canonical_hash →
      tblGet db.blockBody (input.stage_progress.getD 0, canonical_hash) =
          some prev_body →
      collectBatch erigonDb.blockTransaction
          (walkFrom db.canonicalHeader (input.stage_progress.getD 0 + 1))
          (walkFromP erigonDb.blockBody (input.stage_progress.getD 0 + 1))
          durs 0 0 [] = .error m →
      ConvertBodies.execute erigonDb db input commit_after durs = .error m ∧
        ∃ block_num block_hash body,
          m = invalidTxMsg block_num block_hash (body : BodyForStorage).tx_amount
              (readTxs erigonDb.blockTransaction body.base_tx_id
                body.tx_amount).length ∧
            (readTxs erigonDb.blockTransaction body.base_tx_id
              body.tx_amount).length < body.tx_amount ∧
            strContains (toString block_num) m = true) := by
  constructor
  · intro canon ebodies durs2 consumed r h e he
    rcases collectBatch_batch_reads erigonDb.blockTransaction canon ebodies durs2
        consumed 0 [] r h e he with hin | hp
    · cases hin
    · exact hp
  · intro canonical_hash prev_body m hdiveq hcan hbody hcol
    constructor
    · simp only [ConvertBodies.execute]
      rw [if_neg (fun hne => hne hdiveq), hcan]
      simp only []
      rw [hbody]
      simp only [bodiesLoop]
      rw [hcol]
    · obtain ⟨block_num, block_hash, body, hm, hshort⟩ :=
        collectBatch_error_shape erigonDb.blockTransaction _ _ _ _ _ _ _ hcol
      exact ⟨block_num, block_hash, body, hm, hshort,
        hm ▸ invalidTxMsg_names_block block_num block_hash body.tx_amount _⟩

/-- Witness for `convertBodies_reads_exact_stride`: a clean two-block run
whose first gathered block reads exactly its one-transaction stride, and a
run whose block-1 body claims two transactions while the source has one,
producing the fatal message naming block 1. -/
theorem convertBodies_reads_exact_stride_witness :
    (([100] : List Nat) = readTxs exErigonDense.blockTransaction 5 1 ∧
      ([100] : List Nat).length = 1) ∧
      ConvertBodies.execute exErigonShort exLocalShort exInput0 120 [] =
        .error (invalidTxMsg 1 11 2 1) ∧
      strContains (toString (1 : Nat)) (invalidTxMsg 1 11 2 1) = true := by
  constructor
  · exact (convertBodies_reads_exact_stride exErigonDense exLocalDense exInput0
      120 []).1
      (walkFrom exLocalDense.canonicalHeader 1) (walkFromP exErigonDense.blockBody 1)
      [] 0
      ⟨[⟨1, 11, ⟨5, 1, []⟩, [100]⟩, ⟨2, 12, ⟨6, 2, []⟩, [101, 102]⟩],
        [], [], [], 0, true⟩
      (by decide) ⟨1, 11, ⟨5, 1, []⟩, [100]⟩ (by decide)
  · have h := (convertBodies_reads_exact_stride exErigonShort exLocalShort exInput0
      120 []).2 10 ⟨0, 0, []⟩ (invalidTxMsg 1 11 2 1)
      (by decide) (by decide) (by decide) (by decide)
    exact ⟨h.1, by decide⟩

/-- C7: a successful `ConvertBodies.execute` run appends body rows whose
locally assigned `(base_tx_id, tx_amount)` strides are dense — the first
continues at `prev_body.base_tx_id + prev_body.tx_amount` from the body
stored at the prior progress block, each consecutive row continues where the
previous one ended, and the appended transaction rows occupy exactly the
consecutive local ids covered by those strides, in order. -/
theorem convertBodies_dense_tx_ids (erigonDb db : DB) (input : StageInput)
    (commit_after : Nat) (durs : List Nat) (canonical_hash : Nat)
    (prev_body : BodyForStorage) (db' : DB) (hb : Nat) (done : Bool)
    (hdiveq : tblGet erigonDb.canonicalHeader (input.stage_progress.getD 0) =
      tblGet db.canonicalHeader (input.stage_progress.getD 0))
    (hcan : tblGet db.canonicalHeader (input.stage_progress.getD 0) =
      some canonical_hash)
    (hbody : tblGet db.blockBody (input.stage_progress.getD 0, canonical_hash) =
      some prev_body)
    (hexec : ConvertBodies.execute erigonDb db input commit_after durs =
      .ok (db', .Progress hb done)) :
    db'.blockBody = db.blockBody ++ db'.blockBody.drop db.blockBody.length ∧
      db'.blockTransaction = db.blockTransaction ++
        db'.blockTransaction.drop db.blockTransaction.length ∧
      contiguousFrom (prev_body.base_tx_id + prev_body.tx_amount)
        (db'.blockBody.drop db.blockBody.length) = true ∧
      (db'.blockTransaction.drop db.blockTransaction.length).map Prod.fst =
        List.range' (prev_body.base_tx_id + prev_body.tx_amount)
          (sumAmt (db'.blockBody.drop db.blockBody.length)) := by
  simp only [ConvertBodies.execute] at hexec
  rw [if_neg (fun hne => hne hdiveq), hcan] at hexec
  simp only [] at hexec
  rw [hbody] at hexec
  simp only [] at hexec
  obtain ⟨nb, nt, hb2, done2, _, h1, h2, _, _, _, h6, h7, _⟩ :=
    bodiesLoop_spec _ _ _ _ _ _ _ _ _ _ _ _ _ hexec
  have hnb : db'.blockBody.drop db.blockBody.length = nb := by
    rw [h1, List.drop_left]
  have hnt : db'.blockTransaction.drop db.blockTransaction.length = nt := by
    rw [h2, List.drop_left]
  rw [hnb, hnt]
  exact ⟨h1, h2, h6, h7⟩

/-- Witness for `convertBodies_dense_tx_ids`: a clean two-block run with
source strides at source ids 5 and 6-7; locally they are re-based densely at
0 and 1-2, continuing from the stored genesis body `(0, 0)`. -/
theorem convertBodies_dense_tx_ids_witness :
    exLocalDenseOut.blockBody = exLocalDense.blockBody ++
        exLocalDenseOut.blockBody.drop exLocalDense.blockBody.length ∧
      exLocalDenseOut.blockTransaction = exLocalDense.blockTransaction ++
        exLocalDenseOut.blockTransaction.drop exLocalDense.blockTransaction.length ∧
      contiguousFrom 0
        (exLocalDenseOut.blockBody.drop exLocalDense.blockBody.length) = true ∧
      (exLocalDenseOut.blockTransaction.drop
          exLocalDense.blockTransaction.length).map Prod.fst =
        List.range' 0
          (sumAmt (exLocalDenseOut.blockBody.drop exLocalDense.blockBody.length)) :=
  convertBodies_dense_tx_ids exErigonDense exLocalDense exInput0 120 [] 10
    ⟨0, 0, []⟩ exLocalDenseOut 2 true (by decide) (by decide) (by decide)
    (by decide)

/-- C9 (amended): `ConvertBodies.execute` returns `Progress{done: false}`
only when one of its throttled inter-batch checks — which run only after a
batch that exceeded the 500000-transaction cap, and only when more than 30
seconds passed since the previous check — observes accumulated wall-clock
above `commit_after`; in particular `done = false` forces the run's total
duration above `commit_after`, and whenever the total duration stays within
`commit_after` the stage finishes with `done = true` (walker exhausted). -/
theorem convertBodies_commit_after_amended (erigonDb db : DB) (input : StageInput)
    (commit_after : Nat) (durs : List Nat) (db' : DB) (hb : Nat) (done : Bool)
    (hexec : ConvertBodies.execute erigonDb db input commit_after durs =
      .ok (db', .Progress hb done)) :
    (durs.sum ≤ commit_after → done = true) ∧
      (done = false → commit_after < durs.sum) := by
  simp only [ConvertBodies.execute] at hexec
  by_cases hdiv : tblGet erigonDb.canonicalHeader (input.stage_progress.getD 0) ≠
      tblGet db.canonicalHeader (input.stage_progress.getD 0)
  · rw [if_pos hdiv] at hexec
    by_cases h0 : input.stage_progress.getD 0 = 0
    · rw [if_pos h0] at hexec; cases hexec
    · rw [if_neg h0] at hexec; simp at hexec
  · rw [if_neg hdiv] at hexec
    cases hc : tblGet db.canonicalHeader (input.stage_progress.getD 0) with
    | none => rw [hc] at hexec; cases hexec
    | some canonical_hash =>
      rw [hc] at hexec
      simp only [] at hexec
      cases hbd : tblGet db.blockBody (input.stage_progress.getD 0, canonical_hash) with
      | none => rw [hbd] at hexec; cases hexec
      | some prev_body =>
        rw [hbd] at hexec
        simp only [] at hexec
        obtain ⟨nb, nt, hb2, done2, hout, _, _, _, _, _, _, _, htime⟩ :=
          bodiesLoop_spec _ _ _ _ _ _ _ _ _ _ _ _ _ hexec
        have hd : done = done2 := by
          cases hout
          rfl
        subst hd
        constructor
        · intro hle
          by_contra hne
          have : done = false := by
            cases done
            · rfl
            · exact absurd rfl hne
          have := htime this
          omega
        · intro hfalse
          have := htime hfalse
          omega

/-- Witness for `convertBodies_commit_after_amended`: a run whose total
duration (205s) exceeds `commit_after = 120`, so the second conjunct applies
vacuously and the first is not triggered; the run finishes `done = true`. -/
theorem convertBodies_commit_after_amended_witness :
    (([200, 5] : List Nat).sum ≤ 120 → true = true) ∧
      (true = false → 120 < ([200, 5] : List Nat).sum) :=
  convertBodies_commit_after_amended exErigonSlow exLocalSlow exInput0 120
    [200, 5] exLocalSlowOut 2 true (by decide)

/-- C9 counterexample: with `commit_after = 120` and a wall-clock oracle in
which reading block 1 takes 200 seconds, the accumulated wall-clock exceeds
`commit_after` while block 2 is still unread (the walker is not yet
exhausted), yet `execute` returns `Progress{done: true}`: the excess is
never observed because the throttled check runs only after a batch that
exceeded the 500000-transaction cap. -/
theorem convertBodies_commit_after_counterexample :
    ConvertBodies.execute exErigonSlow exLocalSlow exInput0 120 [200, 5] =
        .ok (exLocalSlowOut, .Progress 2 true) ∧
      120 < (([200, 5] : List Nat).take 1).sum ∧
      (walkFrom exLocalSlow.canonicalHeader 1).length = 2 := by decide

/-- C10 (amended): once the divergence check passes (the source and local
`CanonicalHeader` entries at the progress block are equal), the absence of
the local `CanonicalHeader` row (hence of both) or of the local `BlockBody`
row at that block makes `ConvertBodies.execute` panic on `unwrap` — before
any write; when the absence instead makes the two entries differ, the
divergence branch returns `Unwind` (or the genesis error) first, see the
counterexample. -/
theorem convertBodies_missing_row_panics (erigonDb db : DB) (input : StageInput)
    (commit_after : Nat) (durs : List Nat)
    (hdiveq : tblGet erigonDb.canonicalHeader (input.stage_progress.getD 0) =
      tblGet db.canonicalHeader (input.stage_progress.getD 0))
    (habs : tblGet db.canonicalHeader (input.stage_progress.getD 0) = none ∨
      ∃ ch, tblGet db.canonicalHeader (input.stage_progress.getD 0) = some ch ∧
        tblGet db.blockBody (input.stage_progress.getD 0, ch) = none) :
    ConvertBodies.execute erigonDb db input commit_after durs = .panicked := by
  simp only [ConvertBodies.execute]
  rw [if_neg (fun hne => hne hdiveq)]
  rcases habs with hnone | ⟨ch, hsome, hbnone⟩
  · rw [hnone]
  · rw [hsome]
    simp only []
    rw [hbnone]

/-- Witness for `convertBodies_missing_row_panics`: genesis canonical hash
present on both sides but no stored genesis body row — `execute` panics. -/
theorem convertBodies_missing_row_panics_witness :
    ConvertBodies.execute exErigonAgree exLocalNoBody exInput0 120 [] =
      .panicked :=
  convertBodies_missing_row_panics exErigonAgree exLocalNoBody exInput0 120 []
    (by decide) (Or.inr ⟨10, by decide, by decide⟩)

/-- C10 counterexample: the claim "if either row is absent, execute panics
rather than returning an error or Unwind" fails when the absence trips the
divergence check: here the local `CanonicalHeader` row at progress block 5
is absent while the source has one, and `execute` returns
`Unwind{unwind_to: 4}` without panicking. -/
theorem convertBodies_missing_row_counterexample :
    tblGet exLocalMissing.canonicalHeader 5 = none ∧
      ConvertBodies.execute exErigonAt5 exLocalMissing exInput5 120 [] =
        .ok (exLocalMissing, .Unwind 4) := by decide

/-! ## Lemmas about `VerifySlicesStage` -/

theorem slice_verdict_of_downloaded (verifier : VerifierFn) (now chain_spec : Nat)
    (s : HeaderSlice) (hs : s.status = .Downloaded) :
    slice_verdict verifier now chain_spec s =
      set_slice_status s
        (if verify_slice verifier now chain_spec s then .VerifiedInternally
         else .Invalid) := by
  simp [slice_verdict, hs]

theorem slice_verdict_of_not_downloaded (verifier : VerifierFn) (now chain_spec : Nat)
    (s : HeaderSlice) (hs : ¬s.status = .Downloaded) :
    slice_verdict verifier now chain_spec s = s := by
  simp [slice_verdict, hs]

theorem slice_verdict_status_ne (verifier : VerifierFn) (now chain_spec : Nat)
    (s : HeaderSlice) (hs : s.status = .Downloaded) :
    ¬(slice_verdict verifier now chain_spec s).status = .Downloaded := by
  rw [slice_verdict_of_downloaded verifier now chain_spec s hs]
  simp only [set_slice_status]
  split <;> simp

theorem slice_verdict_idem (verifier : VerifierFn) (now chain_spec : Nat)
    (s : HeaderSlice) :
    slice_verdict verifier now chain_spec (slice_verdict verifier now chain_spec s) =
      slice_verdict verifier now chain_spec s := by
  by_cases hs : s.status = .Downloaded
  · exact slice_verdict_of_not_downloaded _ _ _ _
      (slice_verdict_status_ne verifier now chain_spec s hs)
  · rw [slice_verdict_of_not_downloaded verifier now chain_spec s hs,
      slice_verdict_of_not_downloaded verifier now chain_spec s hs]

theorem processBatch_map_verdict (verifier : VerifierFn) (now chain_spec : Nat) :
    ∀ (slices : List HeaderSlice) (n : Nat),
      (processBatch verifier now chain_spec n slices).map
          (slice_verdict verifier now chain_spec) =
        slices.map (slice_verdict verifier now chain_spec) := by
  intro slices
  induction slices with
  | nil => intro n; cases n <;> simp [processBatch]
  | cons s rest ih =>
    intro n
    cases n with
    | zero => simp [processBatch]
    | succ m =>
      simp only [processBatch]
      by_cases hs : s.status = HeaderSliceStatus.Downloaded
      · rw [if_pos hs]
        simp only [List.map_cons, ih]
        congr 1
        rw [← slice_verdict_of_downloaded verifier now chain_spec s hs,
          slice_verdict_idem]
      · rw [if_neg hs]
        simp only [List.map_cons, ih]

theorem countD_zero_map_verdict (verifier : VerifierFn) (now chain_spec : Nat) :
    ∀ (slices : List HeaderSlice),
      countStatus .Downloaded slices = 0 →
      slices.map (slice_verdict verifier now chain_spec) = slices := by
  intro slices
  induction slices with
  | nil => intro _; simp
  | cons s rest ih =>
    intro h
    simp only [countStatus, List.countP_cons] at h
    by_cases hs : s.status = HeaderSliceStatus.Downloaded
    · simp [hs] at h
    · simp only [List.map_cons,
        slice_verdict_of_not_downloaded verifier now chain_spec s hs]
      have : countStatus .Downloaded rest = 0 := by
        simp only [countStatus]
        omega
      rw [ih this]

theorem processBatch_countD_lt (verifier : VerifierFn) (now chain_spec : Nat) :
    ∀ (slices : List HeaderSlice) (n : Nat),
      (countStatus .Downloaded (processBatch verifier now chain_spec n slices) ≤
          countStatus .Downloaded slices) ∧
        (0 < n → 0 < countStatus .Downloaded slices →
          countStatus .Downloaded (processBatch verifier now chain_spec n slices) <
            countStatus .Downloaded slices) := by
  intro slices
  induction slices with
  | nil =>
    intro n
    constructor
    · cases n <;> simp [processBatch]
    · intro _ h
      simp [countStatus] at h
  | cons s rest ih =>
    intro n
    cases n with
    | zero =>
      refine ⟨by simp [processBatch], ?_⟩
      intro h
      omega
    | succ m =>
      simp only [processBatch]
      by_cases hs : s.status = HeaderSliceStatus.Downloaded
      · rw [if_pos hs]
        have hne : ¬(set_slice_status s
            (if verify_slice verifier now chain_spec s then
              HeaderSliceStatus.VerifiedInternally else .Invalid)).status =
            HeaderSliceStatus.Downloaded := by
          simp only [set_slice_status]
          split <;> simp
        constructor
        · simp only [countStatus, List.countP_cons]
          have := (ih m).1
          simp only [countStatus] at this
          simp [hne, hs]
          omega
        · intro _ _
          simp only [countStatus, List.countP_cons]
          have := (ih m).1
          simp only [countStatus] at this
          simp [hne, hs]
          omega
      · rw [if_neg hs]
        constructor
        · simp only [countStatus, List.countP_cons]
          have := (ih (m + 1)).1
          simp only [countStatus] at this
          simp [hs]
          omega
        · intro hn hpos
          have hcount : countStatus .Downloaded (s :: rest) =
              countStatus .Downloaded rest := by
            simp [countStatus, List.countP_cons, hs]
          have hgoal : countStatus .Downloaded
              (s :: processBatch verifier now chain_spec (m + 1) rest) =
              countStatus .Downloaded
                (processBatch verifier now chain_spec (m + 1) rest) := by
            simp [countStatus, List.countP_cons, hs]
          rw [hcount] at hpos
          rw [hgoal, hcount]
          exact (ih (m + 1)).2 hn hpos

theorem find_batch_empty_iff (num_cpus : Nat) (slices : List HeaderSlice)
    (hn : 0 < num_cpus) :
    find_batch_by_status .Downloaded num_cpus slices = [] ↔
      countStatus .Downloaded slices = 0 := by
  constructor
  · intro h
    rcases List.take_eq_nil_iff.mp h with h0 | hfil
    · omega
    · simp only [countStatus,
        List.countP_eq_length_filter, hfil, List.length_nil]
  · intro h
    have hfil : slices.filter
        (fun s => decide (s.status = HeaderSliceStatus.Downloaded)) = [] := by
      have := List.countP_eq_length_filter
        (fun s => decide (s.status = HeaderSliceStatus.Downloaded)) slices
      simp only [countStatus] at h
      rcases List.eq_nil_or_concat'
          (slices.filter (fun s => decide (s.status = HeaderSliceStatus.Downloaded)))
        with hnil | ⟨L, b, hcat⟩
      · exact hnil
      · rw [this, hcat] at h
        simp at h
    simp [find_batch_by_status, hfil]

theorem verify_slice_calls_eq (s : HeaderSlice) :
    verify_slice_calls s = if s.headers.isSome = true then 1 else 0 := by
  cases hh : s.headers <;> simp [verify_slice_calls, hh]

theorem batch_calls_processBatch (verifier : VerifierFn) (now chain_spec : Nat) :
    ∀ (slices : List HeaderSlice) (n : Nat),
      ((find_batch_by_status .Downloaded n slices).map verify_slice_calls).sum +
          (processBatch verifier now chain_spec n slices).countP
            (fun s => decide (s.status = HeaderSliceStatus.Downloaded) &&
              s.headers.isSome) =
        slices.countP (fun s => decide (s.status = HeaderSliceStatus.Downloaded) &&
          s.headers.isSome) := by
  intro slices
  induction slices with
  | nil => intro n; cases n <;> simp [find_batch_by_status, processBatch]
  | cons s rest ih =>
    intro n
    cases n with
    | zero => simp [find_batch_by_status, processBatch]
    | succ m =>
      by_cases hs : s.status = HeaderSliceStatus.Downloaded
      · have hbatch : find_batch_by_status .Downloaded (m + 1) (s :: rest) =
            s :: find_batch_by_status .Downloaded m rest := by
          simp [find_batch_by_status, List.filter_cons, hs]
        have hne : ¬(set_slice_status s
            (if verify_slice verifier now chain_spec s then
              HeaderSliceStatus.VerifiedInternally else .Invalid)).status =
            HeaderSliceStatus.Downloaded := by
          simp only [set_slice_status]
          split <;> simp
        have hih := ih m
        simp only [processBatch, if_pos hs, hbatch, List.map_cons, List.sum_cons,
          List.countP_cons, verify_slice_calls_eq]
        simp only [set_slice_status] at hne ⊢
        simp [hne, hs]
        omega
      · have hbatch : find_batch_by_status .Downloaded (m + 1) (s :: rest) =
            find_batch_by_status .Downloaded (m + 1) rest := by
          simp [find_batch_by_status, List.filter_cons, hs]
        have hih := ih (m + 1)
        simp only [processBatch, if_neg hs, hbatch, List.countP_cons]
        simp [hs]
        omega

theorem verify_pending_spec (verifier : VerifierFn) (now chain_spec num_cpus : Nat)
    (hn : 0 < num_cpus) :
    ∀ (fuel : Nat) (slices : List HeaderSlice),
      countStatus .Downloaded slices ≤ fuel →
      (verify_pending verifier now chain_spec num_cpus fuel slices).1 =
          slices.map (slice_verdict verifier now chain_spec) ∧
        (verify_pending verifier now chain_spec num_cpus fuel slices).2 =
          slices.countP (fun s => decide (s.status = HeaderSliceStatus.Downloaded) &&
            s.headers.isSome) := by
  intro fuel
  induction fuel with
  | zero =>
    intro slices hf
    have h0 : countStatus .Downloaded slices = 0 := by omega
    constructor
    · simp only [verify_pending]
      exact (countD_zero_map_verdict verifier now chain_spec slices h0).symm
    · simp only [verify_pending]
      have hle : slices.countP
          (fun s => decide (s.status = HeaderSliceStatus.Downloaded) &&
            s.headers.isSome) ≤ countStatus .Downloaded slices := by
        apply List.countP_mono_left
        intro a _ ha
        simp only [Bool.and_eq_true] at ha
        exact ha.1
      omega
  | succ fuel ih =>
    intro slices hf
    simp only [verify_pending]
    by_cases hemp : (find_batch_by_status .Downloaded num_cpus slices).isEmpty = true
    · rw [if_pos hemp]
      have h0 := (find_batch_empty_iff num_cpus slices hn).mp
        (List.isEmpty_iff.mp hemp)
      constructor
      · exact (countD_zero_map_verdict verifier now chain_spec slices h0).symm
      · have hle : slices.countP
            (fun s => decide (s.status = HeaderSliceStatus.Downloaded) &&
              s.headers.isSome) ≤ countStatus .Downloaded slices := by
          apply List.countP_mono_left
          intro a _ ha
          simp only [Bool.and_eq_true] at ha
          exact ha.1
        omega
    · rw [if_neg hemp]
      have hne : ¬find_batch_by_status .Downloaded num_cpus slices = [] := by
        intro hc
        exact hemp (by simp [hc])
      have hpos : 0 < countStatus .Downloaded slices := by
        rcases Nat.eq_zero_or_pos (countStatus .Downloaded slices) with h0 | h
        · exact absurd ((find_batch_empty_iff num_cpus slices hn).mpr h0) hne
        · exact h
      have hlt := (processBatch_countD_lt verifier now chain_spec slices num_cpus).2
        hn hpos
      have hih := ih (processBatch verifier now chain_spec num_cpus slices)
        (by omega)
      constructor
      · simp only []
        rw [hih.1, processBatch_map_verdict]
      · simp only []
        rw [hih.2]
        exact batch_calls_processBatch verifier now chain_spec slices num_cpus

theorem countStatus_map_verdict_D (verifier : VerifierFn) (now chain_spec : Nat) :
    ∀ (slices : List HeaderSlice),
      countStatus .Downloaded
        (slices.map (slice_verdict verifier now chain_spec)) = 0 := by
  intro slices
  induction slices with
  | nil => simp [countStatus]
  | cons s rest ih =>
    simp only [List.map_cons, countStatus, List.countP_cons] at ih ⊢
    by_cases hs : s.status = HeaderSliceStatus.Downloaded
    · simp [slice_verdict_status_ne verifier now chain_spec s hs, ih]
    · simp [slice_verdict_of_not_downloaded verifier now chain_spec s hs, hs, ih]

theorem countStatus_map_verdict_VI (verifier : VerifierFn) (now chain_spec : Nat) :
    ∀ (slices : List HeaderSlice),
      countStatus .VerifiedInternally
          (slices.map (slice_verdict verifier now chain_spec)) =
        countStatus .VerifiedInternally slices +
          slices.countP (fun s => decide (s.status = HeaderSliceStatus.Downloaded) &&
            verify_slice verifier now chain_spec s) := by
  intro slices
  induction slices with
  | nil => simp [countStatus]
  | cons s rest ih =>
    simp only [List.map_cons, countStatus, List.countP_cons] at ih ⊢
    by_cases hs : s.status = HeaderSliceStatus.Downloaded
    · rw [slice_verdict_of_downloaded verifier now chain_spec s hs]
      simp only [set_slice_status]
      cases hv : verify_slice verifier now chain_spec s <;> simp [hs, hv, ih] <;> omega
    · rw [slice_verdict_of_not_downloaded verifier now chain_spec s hs]
      simp [hs, ih]
      omega

theorem countStatus_map_verdict_Invalid (verifier : VerifierFn) (now chain_spec : Nat) :
    ∀ (slices : List HeaderSlice),
      countStatus .Invalid
          (slices.map (slice_verdict verifier now chain_spec)) =
        countStatus .Invalid slices +
          slices.countP (fun s => decide (s.status = HeaderSliceStatus.Downloaded) &&
            !verify_slice verifier now chain_spec s) := by
  intro slices
  induction slices with
  | nil => simp [countStatus]
  | cons s rest ih =>
    simp only [List.map_cons, countStatus, List.countP_cons] at ih ⊢
    by_cases hs : s.status = HeaderSliceStatus.Downloaded
    · rw [slice_verdict_of_downloaded verifier now chain_spec s hs]
      simp only [set_slice_status]
      cases hv : verify_slice verifier now chain_spec s <;> simp [hs, hv, ih] <;> omega
    · rw [slice_verdict_of_not_downloaded verifier now chain_spec s hs]
      simp [hs, ih]
      omega

/-- C3: once the wait's postcondition holds (at least one `Downloaded`
slice), `execute` drains: after it returns no slice in the container remains
in `Downloaded`; the drain proceeds in batches whose size is the number of
CPU cores (capped by the number of available `Downloaded` slices). -/
theorem verifySlices_execute_drains_downloaded (verifier : VerifierFn)
    (now chain_spec num_cpus : Nat) (slices : List HeaderSlice)
    (hcpu : 0 < num_cpus) (hwait : 0 < countStatus .Downloaded slices) :
    countStatus .Downloaded
        (VerifySlicesStage.execute verifier now chain_spec num_cpus slices).1 = 0 ∧
      (find_batch_by_status .Downloaded num_cpus slices).length =
        min num_cpus (countStatus .Downloaded slices) := by
  constructor
  · have hf : countStatus .Downloaded slices ≤ slices.length + 1 := by
      have := List.countP_le_length
        (fun s => decide (s.status = HeaderSliceStatus.Downloaded)) (l := slices)
      simp only [countStatus]
      omega
    rw [VerifySlicesStage.execute,
      (verify_pending_spec verifier now chain_spec num_cpus hcpu
        (slices.length + 1) slices hf).1]
    exact countStatus_map_verdict_D verifier now chain_spec slices
  · simp [find_batch_by_status, countStatus, List.length_take,
      List.countP_eq_length_filter]

/-- Witness for `verifySlices_execute_drains_downloaded` on three concrete
slices (two `Downloaded`, one `Empty`) with two CPU cores. -/
theorem verifySlices_execute_drains_downloaded_witness :
    countStatus .Downloaded
        (VerifySlicesStage.execute exVerifier 0 0 2 exSlices).1 = 0 ∧
      (find_batch_by_status .Downloaded 2 exSlices).length =
        min 2 (countStatus .Downloaded exSlices) :=
  verifySlices_execute_drains_downloaded exVerifier 0 0 2 exSlices
    (by decide) (by decide)

/-- C4: when every `Downloaded` slice has its headers present, one `execute`
run maps each slice to its verdict — exactly the accepted `Downloaded`
slices move to `VerifiedInternally`, exactly the rejected ones to `Invalid`,
every other slice is untouched — and the verifier is invoked exactly once
per `Downloaded` slice (the invocation count equals their number). -/
theorem verifySlices_statuses_and_calls (verifier : VerifierFn)
    (now chain_spec num_cpus : Nat) (slices : List HeaderSlice)
    (hcpu : 0 < num_cpus)
    (hheaders : ∀ s ∈ slices, s.status = .Downloaded → s.headers.isSome = true) :
    (VerifySlicesStage.execute verifier now chain_spec num_cpus slices).1 =
        slices.map (slice_verdict verifier now chain_spec) ∧
      (VerifySlicesStage.execute verifier now chain_spec num_cpus slices).2 =
        countStatus .Downloaded slices ∧
      countStatus .VerifiedInternally
          (VerifySlicesStage.execute verifier now chain_spec num_cpus slices).1 =
        countStatus .VerifiedInternally slices +
          slices.countP (fun s => decide (s.status = HeaderSliceStatus.Downloaded) &&
            verify_slice verifier now chain_spec s) ∧
      countStatus .Invalid
          (VerifySlicesStage.execute verifier now chain_spec num_cpus slices).1 =
        countStatus .Invalid slices +
          slices.countP (fun s => decide (s.status = HeaderSliceStatus.Downloaded) &&
            !verify_slice verifier now chain_spec s) := by
  have hf : countStatus .Downloaded slices ≤ slices.length + 1 := by
    have := List.countP_le_length
      (fun s => decide (s.status = HeaderSliceStatus.Downloaded)) (l := slices)
    simp only [countStatus]
    omega
  have hspec := verify_pending_spec verifier now chain_spec num_cpus hcpu
    (slices.length + 1) slices hf
  have h1 : (VerifySlicesStage.execute verifier now chain_spec num_cpus slices).1 =
      slices.map (slice_verdict verifier now chain_spec) := by
    rw [VerifySlicesStage.execute, hspec.1]
  refine ⟨h1, ?_, ?_, ?_⟩
  · rw [VerifySlicesStage.execute, hspec.2]
    simp only [countStatus]
    apply List.countP_congr
    intro s hs
    by_cases hd : s.status = HeaderSliceStatus.Downloaded
    · simp [hd, hheaders s hs hd]
    · simp [hd]
  · rw [h1]
    exact countStatus_map_verdict_VI verifier now chain_spec slices
  · rw [h1]
    exact countStatus_map_verdict_Invalid verifier now chain_spec slices

/-- Witness for `verifySlices_statuses_and_calls` on the concrete window
`exSlices`: one accepted, one rejected, one untouched `Empty` slice, two
verifier invocations. -/
theorem verifySlices_statuses_and_calls_witness :
    (VerifySlicesStage.execute exVerifier 0 0 2 exSlices).1 =
        exSlices.map (slice_verdict exVerifier 0 0) ∧
      (VerifySlicesStage.execute exVerifier 0 0 2 exSlices).2 =
        countStatus .Downloaded exSlices ∧
      countStatus .VerifiedInternally
          (VerifySlicesStage.execute exVerifier 0 0 2 exSlices).1 =
        countStatus .VerifiedInternally exSlices +
          exSlices.countP (fun s => decide (s.status = HeaderSliceStatus.Downloaded) &&
            verify_slice exVerifier 0 0 s) ∧
      countStatus .Invalid
          (VerifySlicesStage.execute exVerifier 0 0 2 exSlices).1 =
        countStatus .Invalid exSlices +
          exSlices.countP (fun s => decide (s.status = HeaderSliceStatus.Downloaded) &&
            !verify_slice exVerifier 0 0 s) :=
  verifySlices_statuses_and_calls exVerifier 0 0 2 exSlices (by decide)
    (by decide)

/-- C5: a slice whose `headers` field is absent at verification time is
judged invalid (`verify_slice` returns `false`) without the configured
verifier ever being invoked. -/
theorem verify_slice_absent_headers (verifier : VerifierFn) (now chain_spec : Nat)
    (s : HeaderSlice) (h : s.headers = none) :
    verify_slice verifier now chain_spec s = false ∧ verify_slice_calls s = 0 := by
  constructor
  · simp [verify_slice, h]
  · simp [verify_slice_calls, h]

/-- Witness for `verify_slice_absent_headers` on a concrete headerless
`Downloaded` slice. -/
theorem verify_slice_absent_headers_witness :
    verify_slice exVerifier 0 0 exSliceNoHeaders = false ∧
      verify_slice_calls exSliceNoHeaders = 0 :=
  verify_slice_absent_headers exVerifier 0 0 exSliceNoHeaders (by decide)

/-! ## Lemmas about the unwind paths -/

theorem bodiesUnwindLoop_eq (unwind_to : Nat) :
    ∀ (fuel : Nat) (bodies : List ((Nat × Nat) × BodyForStorage))
      (txs : List (Nat × Nat)),
      bodies.length < fuel →
      bodies.Pairwise (fun a b => a.1.1 ≤ b.1.1) →
      bodiesUnwindLoop unwind_to fuel bodies txs =
        (bodies.filter (fun e => decide (e.1.1 ≤ unwind_to)),
         txs.filter (fun t =>
           (bodies.filter (fun e => decide (unwind_to < e.1.1))).all
             (fun e => !strideCovers e.2 t.1))) := by
  intro fuel
  induction fuel with
  | zero =>
    intro bodies txs hlen _
    omega
  | succ fuel ih =>
    intro bodies txs hlen hsort
    rcases List.eq_nil_or_concat' bodies with rfl | ⟨bs, b, rfl⟩
    · simp [bodiesUnwindLoop, List.filter_true]
    · obtain ⟨⟨block_num, block_hash⟩, body⟩ := b
      have hlast : (bs ++ [((block_num, block_hash), body)]).getLast? =
          some ((block_num, block_hash), body) := List.getLast?_concat _
      have hsplit := List.pairwise_append.mp hsort
      have hall : ∀ e ∈ bs, e.1.1 ≤ block_num := by
        intro e he
        exact hsplit.2.2 e he ((block_num, block_hash), body) (by simp)
      simp only [bodiesUnwindLoop, hlast]
      by_cases hU : block_num ≤ unwind_to
      · rw [if_pos hU]
        have hkeep : (bs ++ [((block_num, block_hash), body)]).filter
            (fun e => decide (e.1.1 ≤ unwind_to)) =
            bs ++ [((block_num, block_hash), body)] := by
          apply List.filter_eq_self.mpr
          intro a ha
          rcases List.mem_append.mp ha with h | h
          · have := hall a h
            simp only [decide_eq_true_eq]
            omega
          · rcases List.mem_singleton.mp h with rfl
            simp only [decide_eq_true_eq]
            omega
        have hdrop : (bs ++ [((block_num, block_hash), body)]).filter
            (fun e => decide (unwind_to < e.1.1)) = [] := by
          rw [List.filter_eq_nil_iff]
          intro a ha
          rcases List.mem_append.mp ha with h | h
          · have := hall a h
            simp only [decide_eq_true_eq, Bool.not_eq_true]
            omega
          · rcases List.mem_singleton.mp h with rfl
            simp only [decide_eq_true_eq, Bool.not_eq_true]
            omega
        rw [hkeep, hdrop]
        simp [List.filter_true]
      · rw [if_neg hU]
        have hgt : unwind_to < block_num := Nat.lt_of_not_le hU
        have hlen2 : bs.length < fuel := by
          rw [List.length_append] at hlen
          simp only [List.length_singleton] at hlen
          omega
        rw [List.dropLast_concat, ih bs _ hlen2 hsplit.1]
        simp only [Prod.mk.injEq]
        constructor
        · rw [List.filter_append]
          simp [hU]
        · rw [List.filter_filter]
          apply List.filter_congr
          intro t _
          rw [List.filter_append, List.all_append]
          simp [hgt, Bool.and_comm]

/-- C8: after `ConvertHeaders.unwind` no row keyed by a block number above
`unwind_to` remains in `CanonicalHeader`, `Header` or
`HeadersTotalDifficulty`, rows at or below stay, and the returned stage
progress is `unwind_to`; after `ConvertBodies.unwind` (on a block-sorted
body table) the same holds for `BlockBody`, no remaining transaction is
covered by the `(base_tx_id, tx_amount)` stride of any deleted (above
`unwind_to`) body, transactions outside every deleted stride survive, the
returned stage progress is `unwind_to`; and when every stored block is
already at or below `unwind_to` (an `unwind_to` at or above the current
progress) both unwinds succeed and change nothing. -/
theorem unwind_removes_above_target (db : DB) (U p : Nat)
    (hsort : db.blockBody.Pairwise (fun a b => a.1.1 ≤ b.1.1)) :
    (∀ e, e ∈ (ConvertHeaders.unwind db ⟨U, p⟩).1.canonicalHeader ↔
      e ∈ db.canonicalHeader ∧ e.1 ≤ U) ∧
    (∀ e, e ∈ (ConvertHeaders.unwind db ⟨U, p⟩).1.header ↔
      e ∈ db.header ∧ e.1.1 ≤ U) ∧
    (∀ e, e ∈ (ConvertHeaders.unwind db ⟨U, p⟩).1.headersTotalDifficulty ↔
      e ∈ db.headersTotalDifficulty ∧ e.1.1 ≤ U) ∧
    (ConvertHeaders.unwind db ⟨U, p⟩).2.stage_progress = U ∧
    ((∀ e ∈ db.canonicalHeader, e.1 ≤ U) → (∀ e ∈ db.header, e.1.1 ≤ U) →
      (∀ e ∈ db.headersTotalDifficulty, e.1.1 ≤ U) →
      (ConvertHeaders.unwind db ⟨U, p⟩).1 = db) ∧
    (∀ e, e ∈ (ConvertBodies.unwind db ⟨U, p⟩).1.blockBody ↔
      e ∈ db.blockBody ∧ e.1.1 ≤ U) ∧
    (∀ t ∈ (ConvertBodies.unwind db ⟨U, p⟩).1.blockTransaction,
      t ∈ db.blockTransaction ∧
        ∀ e ∈ db.blockBody, U < e.1.1 → strideCovers e.2 t.1 = false) ∧
    (∀ t ∈ db.blockTransaction,
      (∀ e ∈ db.blockBody, U < e.1.1 → strideCovers e.2 t.1 = false) →
      t ∈ (ConvertBodies.unwind db ⟨U, p⟩).1.blockTransaction) ∧
    (ConvertBodies.unwind db ⟨U, p⟩).2.stage_progress = U ∧
    ((∀ e ∈ db.blockBody, e.1.1 ≤ U) → (ConvertBodies.unwind db ⟨U, p⟩).1 = db) := by
  have hloop := bodiesUnwindLoop_eq U (db.blockBody.length + 1) db.blockBody
    db.blockTransaction (by omega) hsort
  have hbb : (ConvertBodies.unwind db ⟨U, p⟩).1.blockBody =
      db.blockBody.filter (fun e => decide (e.1.1 ≤ U)) := by
    simp [ConvertBodies.unwind, hloop]
  have hbt : (ConvertBodies.unwind db ⟨U, p⟩).1.blockTransaction =
      db.blockTransaction.filter (fun t =>
        (db.blockBody.filter (fun e => decide (U < e.1.1))).all
          (fun e => !strideCovers e.2 t.1)) := by
    simp [ConvertBodies.unwind, hloop]
  refine ⟨?_, ?_, ?_, rfl, ?_, ?_, ?_, ?_, ?_, ?_⟩
  · intro e
    simp [ConvertHeaders.unwind, unwind_by_block_key, List.mem_filter]
  · intro e
    simp [ConvertHeaders.unwind, unwind_by_block_key, List.mem_filter]
  · intro e
    simp [ConvertHeaders.unwind, unwind_by_block_key, List.mem_filter]
  · intro hc hh htd
    have e1 : unwind_by_block_key id db.canonicalHeader U = db.canonicalHeader :=
      List.filter_eq_self.mpr (by intro a ha; simpa using hc a ha)
    have e2 : unwind_by_block_key Prod.fst db.header U = db.header :=
      List.filter_eq_self.mpr (by intro a ha; simpa using hh a ha)
    have e3 : unwind_by_block_key Prod.fst db.headersTotalDifficulty U =
        db.headersTotalDifficulty :=
      List.filter_eq_self.mpr (by intro a ha; simpa using htd a ha)
    simp [ConvertHeaders.unwind, e1, e2, e3]
  · intro e
    rw [hbb]
    simp [List.mem_filter]
  · intro t ht
    rw [hbt] at ht
    rcases List.mem_filter.mp ht with ⟨htx, hall⟩
    refine ⟨htx, ?_⟩
    intro e he hgt
    have := (List.all_eq_true.mp hall) e
      (List.mem_filter.mpr ⟨he, by simpa using hgt⟩)
    simpa using this
  · intro t ht hcov
    rw [hbt]
    apply List.mem_filter.mpr
    refine ⟨ht, List.all_eq_true.mpr ?_⟩
    intro e he
    rcases List.mem_filter.mp he with ⟨hbe, hgt⟩
    have := hcov e hbe (by simpa using hgt)
    simpa using this
  · simp [ConvertBodies.unwind]
  · intro hb
    have e1 : db.blockBody.filter (fun e => decide (e.1.1 ≤ U)) = db.blockBody :=
      List.filter_eq_self.mpr (by intro a ha; simpa using hb a ha)
    have e2 : db.blockBody.filter (fun e => decide (U < e.1.1)) = [] := by
      rw [List.filter_eq_nil_iff]
      intro a ha
      have := hb a ha
      simp only [decide_eq_true_eq, Bool.not_eq_true]
      omega
    have e3 : db.blockTransaction.filter (fun t =>
        (db.blockBody.filter (fun e => decide (U < e.1.1))).all
          (fun e => !strideCovers e.2 t.1)) = db.blockTransaction := by
      rw [e2]
      simp [List.filter_true]
    have hshape : (ConvertBodies.unwind db ⟨U, p⟩).1 = { db with
        blockBody := db.blockBody.filter (fun e => decide (e.1.1 ≤ U)),
        blockTransaction := db.blockTransaction.filter (fun t =>
          (db.blockBody.filter (fun e => decide (U < e.1.1))).all
            (fun e => !strideCovers e.2 t.1)) } := by
      simp [ConvertBodies.unwind, hloop]
    rw [hshape, e1, e3]

/-- Witness for `unwind_removes_above_target` on a concrete populated db,
unwinding to block 1: rows at or below 1 survive, rows above are gone, both
stages report progress 1. -/
theorem unwind_removes_above_target_witness :
    ((0, 10) ∈ (ConvertHeaders.unwind exUnwindDb ⟨1, 3⟩).1.canonicalHeader ↔
      (0, 10) ∈ exUnwindDb.canonicalHeader ∧ 0 ≤ 1) ∧
      (ConvertHeaders.unwind exUnwindDb ⟨1, 3⟩).2.stage_progress = 1 ∧
      (((2, 12), (⟨3, 1, []⟩ : BodyForStorage)) ∈
          (ConvertBodies.unwind exUnwindDb ⟨1, 3⟩).1.blockBody ↔
        ((2, 12), (⟨3, 1, []⟩ : BodyForStorage)) ∈ exUnwindDb.blockBody ∧ 2 ≤ 1) ∧
      (ConvertBodies.unwind exUnwindDb ⟨1, 3⟩).2.stage_progress = 1 := by
  have h := unwind_removes_above_target exUnwindDb 1 3 (by decide)
  exact ⟨h.1 (0, 10), h.2.2.2.1, h.2.2.2.2.2.1 ((2, 12), ⟨3, 1, []⟩),
    h.2.2.2.2.2.2.2.2.1⟩
